import Mathlib

/-!
Verification of the resumable chunked downloader
(`prepperapp/content/scripts/chunked_downloader.py`).

The Python code is shallowly embedded: byte strings are `List Nat`, files
on disk are optional `List Nat`, the chunk-completion set of the ledger is
a `Finset Nat`, and the hash function is an abstract parameter
`hashFn : List Nat → List Char` (a lower-case hex digest string; SHA-256
itself is irrelevant to the claims,
which only compare digests).  Stateful code is explicit state passing.
-/

namespace Prepper

/-- Source constant `ChunkedDownloader.CHUNK_SIZE` (4 MiB). -/
def CHUNK_SIZE : Nat := 4 * 1024 * 1024

/-- Source constant `ChunkedDownloader.MAX_RETRIES`. -/
def MAX_RETRIES : Nat := 3

/-- Source constant `ChunkedDownloader.RETRY_DELAY` (seconds). -/
def RETRY_DELAY : Nat := 5

/-! ## Transfer planner

`download_with_resume` computes
`total_chunks = (file_size + self.chunk_size - 1) // self.chunk_size`,
`start_byte = chunk_num * self.chunk_size` and
`end_byte = min(start_byte + self.chunk_size - 1, file_size - 1)`. -/

/-- `total_chunks` from line 132 of the source. -/
def total_chunks (file_size chunk_size : Nat) : Nat :=
  (file_size + chunk_size - 1) / chunk_size

/-- `start_byte` from line 151 of the source. -/
def start_byte (chunk_size chunk_num : Nat) : Nat := chunk_num * chunk_size

/-- `end_byte` from line 152 of the source (inclusive last byte). -/
def end_byte (file_size chunk_size chunk_num : Nat) : Nat :=
  min (start_byte chunk_size chunk_num + chunk_size - 1) (file_size - 1)

/-- Length in bytes of chunk `chunk_num` (the bytes of the inclusive
range `[start_byte, end_byte]` requested by the downloader). -/
def chunk_len (file_size chunk_size chunk_num : Nat) : Nat :=
  end_byte file_size chunk_size chunk_num - start_byte chunk_size chunk_num + 1

/-- The tiling property of the chunk plan: chunks are in-range and
nonempty, start at 0, are contiguous, end at the last byte, are pairwise
non-overlapping, cover every byte (uniquely, by the chunk `b / c`), sum
to the file size, and the chunk count is the ceiling of `s / c`. -/
def ChunkPlanTiles (s c : Nat) : Prop :=
  (∀ i, i < total_chunks s c →
    start_byte c i ≤ end_byte s c i ∧ end_byte s c i < s) ∧
  start_byte c 0 = 0 ∧
  (∀ i, i + 1 < total_chunks s c →
    end_byte s c i + 1 = start_byte c (i + 1)) ∧
  end_byte s c (total_chunks s c - 1) = s - 1 ∧
  (∀ i j, i < j → j < total_chunks s c → end_byte s c i < start_byte c j) ∧
  (∀ b, b < s → b / c < total_chunks s c ∧
    start_byte c (b / c) ≤ b ∧ b ≤ end_byte s c (b / c) ∧
    (∀ i, i < total_chunks s c → start_byte c i ≤ b → b ≤ end_byte s c i →
      i = b / c)) ∧
  (∑ i ∈ Finset.range (total_chunks s c), chunk_len s c i = s) ∧
  s ≤ total_chunks s c * c ∧ (total_chunks s c - 1) * c < s

/-! ## Chunk fetcher (`download_chunk_with_retry`, lines 75-101)

One iteration of the retry loop issues a ranged GET whose outcome is one
of: status 206 (returns the body), status 200 (the code raises
`Exception("Server doesn't support partial downloads")`), a 4xx/5xx
status (`raise_for_status` raises), a network/timeout exception from the
request itself, or any other status (`raise_for_status` is a no-op and
the loop silently falls through to the next attempt).  The raising
outcomes are caught by the `except` clause, which sleeps
`RETRY_DELAY * 2 ** attempt` when `attempt < max_retries - 1`. -/

inductive AttemptResult where
  /-- HTTP 206, body returned. -/
  | status206 (body : List Nat)
  /-- HTTP 200: the code raises instead of accepting the full body. -/
  | status200 (body : List Nat)
  /-- 4xx/5xx: `raise_for_status` raises. -/
  | httpErr (code : Nat)
  /-- The request itself raised (network error / timeout). -/
  | netErr
  /-- Any other status: no exception, loop falls through. -/
  | otherStatus
deriving DecidableEq

/-- Whether one attempt ends in a raised exception (caught by the
`except` clause of the retry loop). -/
def raising : AttemptResult → Bool
  | .status206 _ => false
  | .otherStatus => false
  | _ => true

/-- An attempt result the spec classifies as transient (network error or
HTTP error status). -/
def isTransient : AttemptResult → Bool
  | .netErr => true
  | .httpErr _ => true
  | _ => false

/-- The retry loop of `download_chunk_with_retry`, from loop index `i`
with `fuel = max_retries - i` iterations left.  Returns the fetched
bytes (`none` = the function raised), the number of attempts actually
made, and the list of backoff delays slept. -/
def retry_go (responses : Nat → AttemptResult) (max_retries : Nat) :
    Nat → Nat → Option (List Nat) × Nat × List Nat
  | _, 0 => (none, 0, [])
  | i, fuel + 1 =>
    match responses i with
    | .status206 body => (some body, 1, [])
    | .otherStatus =>
      let r := retry_go responses max_retries (i + 1) fuel
      (r.1, r.2.1 + 1, r.2.2)
    | _ =>
      if i < max_retries - 1 then
        let r := retry_go responses max_retries (i + 1) fuel
        (r.1, r.2.1 + 1, RETRY_DELAY * 2 ^ i :: r.2.2)
      else
        (none, 1, [])

/-- `download_chunk_with_retry` (lines 75-101): run the retry loop over
`range(max_retries)`, given the per-attempt outcomes `responses`. -/
def download_chunk_with_retry (responses : Nat → AttemptResult)
    (max_retries : Nat) : Option (List Nat) × Nat × List Nat :=
  retry_go responses max_retries 0 max_retries

/-! ## The download loop of `download_with_resume` (lines 138-181) -/

/-- A write at byte offset `start` into file contents `t`, as Python's
`f.seek(start); f.write(data); f.flush()` behaves on a file opened in
binary update mode (a seek past EOF zero-fills the gap). -/
def write_at (t : List Nat) (start : Nat) (data : List Nat) : List Nat :=
  t.take start ++ List.replicate (start - t.length) 0 ++ data ++
    t.drop (start + data.length)

/-- The bytes of chunk `i` of a resource with contents `src`: the body a
correct server returns for the ranged request `[start_byte, end_byte]`. -/
def chunkData (src : List Nat) (chunk_size i : Nat) : List Nat :=
  (src.drop (i * chunk_size)).take chunk_size

/-- In-memory state of the download loop: the temp file contents, the
`chunks_completed` set, the ordinals passed to
`download_chunk_with_retry` so far, and every ledger persisted by
`save_metadata` so far (paired with the temp-file contents at the moment
of that persist; the code flushes each chunk write before recording it). -/
structure DLState where
  temp : List Nat
  completed : Finset Nat
  fetched : List Nat
  savedLedgers : List (Finset Nat × List Nat)
deriving DecidableEq

/-- One iteration of `for chunk_num in range(total_chunks)` (lines
147-181).  The boolean is `false` once the loop has returned `False`
(an error return exits the whole function, so later iterations do
nothing).  A completed ordinal is skipped; otherwise the chunk is
fetched (`fetch chunk_num = none` means `download_chunk_with_retry`
raised): on success the bytes are written at `start_byte` and flushed,
the ordinal added, and the ledger persisted when the completed count is
a multiple of 10; on failure the ledger is persisted and the loop stops. -/
def stepChunk (chunk_size : Nat) (fetch : Nat → Option (List Nat)) :
    DLState × Bool → Nat → DLState × Bool
  | (st, false), _ => (st, false)
  | (st, true), chunk_num =>
    if chunk_num ∈ st.completed then (st, true)
    else
      match fetch chunk_num with
      | some data =>
        let temp' := write_at st.temp (chunk_num * chunk_size) data
        let completed' := insert chunk_num st.completed
        ({ temp := temp'
           completed := completed'
           fetched := st.fetched ++ [chunk_num]
           savedLedgers :=
             if completed'.card % 10 = 0 then
               st.savedLedgers ++ [(completed', temp')]
             else st.savedLedgers }, true)
      | none =>
        ({ st with
           fetched := st.fetched ++ [chunk_num]
           savedLedgers := st.savedLedgers ++ [(st.completed, st.temp)] },
         false)

/-- Outcome of one `download_with_resume` call: the function raised an
uncaught exception, returned `False`, or returned `True` after the
rename. -/
inductive Outcome where
  | raised
  | failed
  | published
deriving DecidableEq

/-- The on-disk state relevant to one destination: the destination file,
the `.tmp` file, and the `.meta` ledger file.  For the ledger,
`none` = absent, `some none` = present but unparseable JSON,
`some (some S)` = parseable with completed-chunk set `S`. -/
structure FS where
  dest : Option (List Nat)
  temp : Option (List Nat)
  meta : Option (Option (Finset Nat))
deriving DecidableEq

/-- Result of `download_with_resume`: final on-disk state, outcome, the
chunk ordinals fetched, and the ledgers persisted during the run. -/
structure DownloadResult where
  fs : FS
  outcome : Outcome
  fetched : List Nat
  savedLedgers : List (Finset Nat × List Nat)
deriving DecidableEq

/-- `load_metadata` (lines 54-63): a missing ledger file yields the
fresh empty ledger; an existing file is fed to `json.load`, which raises
on unparseable contents (`.error`). -/
def load_metadata : Option (Option (Finset Nat)) → Except Unit (Finset Nat)
  | none => .ok ∅
  | some none => .error ()
  | some (some S) => .ok S

/-- Contents of the `.meta` file after the loop: the last ledger
persisted by `save_metadata`, or the original file if none was. -/
def metaAfterRun (orig : Option (Option (Finset Nat)))
    (saved : List (Finset Nat × List Nat)) : Option (Option (Finset Nat)) :=
  match saved.getLast? with
  | some e => some (some e.1)
  | none => orig

/-- Python's `str.lower()` applied to a hex digest string
(the comparison on line 189 is `calculated_hash.lower() != verify_hash.lower()`). -/
def lower (h : List Char) : List Char := h.map Char.toLower

/-- The loop init state of `download_with_resume`. -/
def initState (temp0 : List Nat) (S0 : Finset Nat) : DLState :=
  { temp := temp0, completed := S0, fetched := [], savedLedgers := [] }

/-- Run of the chunk loop (lines 147-181). -/
def runLoop (c : Nat) (fetch : Nat → Option (List Nat)) (temp0 : List Nat)
    (S0 : Finset Nat) (total : Nat) : DLState × Bool :=
  (List.range total).foldl (stepChunk c fetch) (initState temp0 S0, true)

/-- The publish step, lines 196-203: `temp_path.rename(dest_path)` then
`meta_path.unlink()` then `return True`.  The unlink is unguarded, and
`Path.unlink()` raises `FileNotFoundError` when the file is absent; the
`.meta` file exists at this point only if it was present on disk at
entry or an every-10th-chunk save fired during this run.  Otherwise the
rename has already happened — the destination holds the assembled bytes
and the temp file is gone — but the function raises at line 200 and
never returns `True`. -/
def publish_step (fs : FS) (st : DLState) : DownloadResult :=
  if fs.meta.isSome ∨ st.savedLedgers ≠ [] then
    { fs := { dest := some st.temp, temp := none, meta := none }
      outcome := .published, fetched := st.fetched
      savedLedgers := st.savedLedgers }
  else
    { fs := { dest := some st.temp, temp := none, meta := none }
      outcome := .raised, fetched := st.fetched
      savedLedgers := st.savedLedgers }

/-- Lines 138-203 of `download_with_resume`: run the chunk loop over the
opened temp file, then (on full success) verify the whole-file hash
case-insensitively when `verify_hash` was provided, rename the temp file
onto the destination and unlink the ledger (which raises when no ledger
file exists, see `publish_step`); a hash mismatch or a chunk failure
returns `False` with the temp file left in place. -/
def download_loop (chunk_size : Nat) (verify_hash : Option (List Char))
    (hashFn : List Nat → List Char) (fetch : Nat → Option (List Nat))
    (fs : FS) (temp0 : List Nat) (completed0 : Finset Nat) (total : Nat) :
    DownloadResult :=
  let r := runLoop chunk_size fetch temp0 completed0 total
  let st := r.1
  if r.2 then
    match verify_hash with
    | some vh =>
      if lower (hashFn st.temp) = lower vh then
        publish_step fs st
      else
        { fs := { dest := fs.dest, temp := some st.temp
                  meta := metaAfterRun fs.meta st.savedLedgers }
          outcome := .failed, fetched := st.fetched
          savedLedgers := st.savedLedgers }
    | none =>
      publish_step fs st
  else
    { fs := { dest := fs.dest, temp := some st.temp
              meta := metaAfterRun fs.meta st.savedLedgers }
      outcome := .failed, fetched := st.fetched
      savedLedgers := st.savedLedgers }

/-- `download_with_resume` (lines 103-203) for a resource of size
`file_size`.  Loading an unparseable ledger raises (uncaught).  When the
temp file is absent it is opened with mode `'wb'` and pre-allocated by
seeking to `file_size - 1` and writing one zero byte; for `file_size = 0` that seek
position is negative and raises `ValueError` (uncaught) after the empty
temp file was created.  When the temp file exists it is opened with
`'r+b'`, keeping its contents. -/
def download_with_resume (chunk_size file_size : Nat)
    (verify_hash : Option (List Char)) (hashFn : List Nat → List Char)
    (fetch : Nat → Option (List Nat)) (fs : FS) : DownloadResult :=
  match load_metadata fs.meta with
  | .error _ =>
    { fs := fs, outcome := .raised, fetched := [], savedLedgers := [] }
  | .ok chunks_completed =>
    let total := total_chunks file_size chunk_size
    match fs.temp with
    | none =>
      if file_size = 0 then
        { fs := { fs with temp := some [] }, outcome := .raised
          fetched := [], savedLedgers := [] }
      else
        download_loop chunk_size verify_hash hashFn fetch fs
          (List.replicate file_size 0) chunks_completed total
    | some t =>
      download_loop chunk_size verify_hash hashFn fetch fs t
        chunks_completed total

/-- Convenient constructor for the on-disk state of a resumed download:
temp file present with contents `t0`, parseable ledger with completed
set `S0`. -/
def resumeFS (dest0 : Option (List Nat)) (t0 : List Nat) (S0 : Finset Nat) :
    FS :=
  { dest := dest0, temp := some t0, meta := some (some S0) }

/-- Fresh on-disk state: no temp file, no ledger. -/
def freshFS (dest0 : Option (List Nat)) : FS :=
  { dest := dest0, temp := none, meta := none }

/-! ## The flushed-chunk invariant

`ChunkIntact src c s S t` says: file contents `t` have length `s` and
agree with the resource bytes `src` on the byte range of every chunk
ordinal in `S`. -/

def ChunkIntact (src : List Nat) (c s : Nat) (S : Finset Nat)
    (t : List Nat) : Prop :=
  t.length = s ∧ ∀ p, p < s → p / c ∈ S → t.getD p 0 = src.getD p 0

/-- The ordinals fetched by a run that reached chunk `m`: the ordinals
below `m` that were not recorded as completed in the loaded ledger. -/
def outstandingBelow (S0 : Finset Nat) (m : Nat) : List Nat :=
  (List.range m).filter (fun i => decide (i ∉ S0))

/-- The boolean actually returned by `download_with_resume` (lines 181,
193 and 203 of the source): `True` exactly when the artifact was
renamed onto its destination.  `download_content_package` aggregates
nothing but this boolean per artifact. -/
def returnValue (r : DownloadResult) : Bool :=
  match r.outcome with
  | .published => true
  | _ => false

/-! ## Theorems -/

lemma publish_step_dest (fs : FS) (st : DLState) :
    (publish_step fs st).fs.dest = some st.temp := by
  rw [publish_step]; split <;> rfl

lemma publish_step_temp (fs : FS) (st : DLState) :
    (publish_step fs st).fs.temp = none := by
  rw [publish_step]; split <;> rfl

lemma publish_step_fetched (fs : FS) (st : DLState) :
    (publish_step fs st).fetched = st.fetched := by
  rw [publish_step]; split <;> rfl

lemma publish_step_savedLedgers (fs : FS) (st : DLState) :
    (publish_step fs st).savedLedgers = st.savedLedgers := by
  rw [publish_step]; split <;> rfl

/-- When a ledger file exists on disk at entry, the final
`meta_path.unlink()` succeeds and the publish step returns `True`. -/
lemma publish_step_of_meta_isSome {fs : FS} (st : DLState)
    (h : fs.meta.isSome = true) :
    publish_step fs st =
      { fs := { dest := some st.temp, temp := none, meta := none }
        outcome := .published, fetched := st.fetched
        savedLedgers := st.savedLedgers } := by
  rw [publish_step, if_pos (Or.inl h)]


lemma total_chunks_pos {s c : Nat} (hs : 0 < s) (hc : 0 < c) :
    0 < total_chunks s c := by
  have h : 1 * c ≤ s + c - 1 := by omega
  exact (Nat.le_div_iff_mul_le hc).mpr h

lemma le_total_chunks_mul {s c : Nat} (hs : 0 < s) (hc : 0 < c) :
    s ≤ total_chunks s c * c := by
  have h1 := Nat.div_add_mod (s + c - 1) c
  have h2 : (s + c - 1) % c < c := Nat.mod_lt _ hc
  have h3 : c * ((s + c - 1) / c) = ((s + c - 1) / c) * c := Nat.mul_comm _ _
  unfold total_chunks
  omega

lemma total_chunks_pred_mul_lt {s c : Nat} (hs : 0 < s) (hc : 0 < c) :
    (total_chunks s c - 1) * c < s := by
  have h1 : (s + c - 1) / c * c ≤ s + c - 1 := Nat.div_mul_le_self _ _
  have h2 : (total_chunks s c - 1) * c = total_chunks s c * c - 1 * c :=
    (Nat.sub_mul _ _ _)
  unfold total_chunks at h2 ⊢
  omega

lemma start_lt_of_lt_total {s c i : Nat} (hs : 0 < s) (hc : 0 < c)
    (hi : i < total_chunks s c) : i * c < s := by
  have h1 : i * c ≤ (total_chunks s c - 1) * c :=
    Nat.mul_le_mul_right _ (by omega)
  have h2 := total_chunks_pred_mul_lt hs hc
  omega

lemma succ_mul_le_of_succ_lt_total {s c i : Nat} (hs : 0 < s) (hc : 0 < c)
    (hi : i + 1 < total_chunks s c) : (i + 1) * c < s := by
  exact start_lt_of_lt_total hs hc hi

lemma chunk_len_eq {s c i : Nat} (hs : 0 < s) (hc : 0 < c)
    (hi : i < total_chunks s c) :
    chunk_len s c i = min (i * c + c) s - i * c := by
  have h1 := start_lt_of_lt_total hs hc hi
  unfold chunk_len end_byte start_byte
  omega

lemma sum_chunk_len {s c : Nat} (hs : 0 < s) (hc : 0 < c) :
    ∀ m, m ≤ total_chunks s c →
      ∑ i ∈ Finset.range m, chunk_len s c i = min (m * c) s := by
  intro m
  induction m with
  | zero => intro _; simp
  | succ k ih =>
    intro hk
    rw [Finset.sum_range_succ, ih (by omega),
      chunk_len_eq hs hc (by omega)]
    have h1 := start_lt_of_lt_total hs hc (show k < total_chunks s c by omega)
    have h2 : (k + 1) * c = k * c + c := by rw [Nat.succ_mul]
    omega

/-- C1: for `expectedSize > 0` and `chunkSize > 0` the chunk plan of
`download_with_resume` exactly tiles `[0, expectedSize)`. -/
theorem chunk_plan_tiles (s c : Nat) (hs : 0 < s) (hc : 0 < c) :
    ChunkPlanTiles s c := by
  have hub := le_total_chunks_mul hs hc
  have hlb := total_chunks_pred_mul_lt hs hc
  have hpos := total_chunks_pos hs hc
  refine ⟨?_, ?_, ?_, ?_, ?_, ?_, ?_, hub, hlb⟩
  · intro i hi
    have h1 := start_lt_of_lt_total hs hc hi
    unfold start_byte end_byte start_byte
    omega
  · simp [start_byte]
  · intro i hi
    have h1 := succ_mul_le_of_succ_lt_total hs hc hi
    have h2 : (i + 1) * c = i * c + c := by rw [Nat.succ_mul]
    unfold end_byte start_byte
    omega
  · have h1 : (total_chunks s c - 1) * c ≤ s - 1 := by omega
    unfold end_byte start_byte
    have h2 : total_chunks s c * c = (total_chunks s c - 1) * c + 1 * c := by
      rw [← Nat.add_mul]; congr 1; omega
    omega
  · intro i j hij hj
    have h1 : i * c + 1 * c ≤ j * c := by
      rw [← Nat.add_mul]; exact Nat.mul_le_mul_right _ (by omega)
    unfold end_byte start_byte
    omega
  · intro b hb
    have hdm := Nat.div_add_mod b c
    have hmod : b % c < c := Nat.mod_lt _ hc
    have hcomm : c * (b / c) = (b / c) * c := Nat.mul_comm _ _
    have hlt : b / c < total_chunks s c := by
      refine (Nat.div_lt_iff_lt_mul hc).mpr ?_
      omega
    refine ⟨hlt, ?_, ?_, ?_⟩
    · unfold start_byte; omega
    · have h1 := start_lt_of_lt_total hs hc hlt
      unfold end_byte start_byte
      omega
    · intro i hi hbl hbu
      unfold start_byte at hbl
      unfold end_byte start_byte at hbu
      have h2 : b < (i + 1) * c := by
        have : (i + 1) * c = i * c + c := by rw [Nat.succ_mul]
        omega
      have h3 : b / c = i := Nat.div_eq_of_lt_le hbl h2
      omega
  · rw [sum_chunk_len hs hc _ (le_refl _)]
    omega

/-- Witness for C1 at the spec's concrete scenario A
(10,000,000‑byte file, 4 MiB chunks). -/
theorem chunk_plan_tiles_witness :
    0 < 10000000 ∧ 0 < 4194304 ∧ ChunkPlanTiles 10000000 4194304 :=
  ⟨by decide, by decide, chunk_plan_tiles 10000000 4194304 (by decide) (by decide)⟩

/-! ## Lemmas about the retry loop -/

lemma isTransient_raising {r : AttemptResult} (h : isTransient r = true) :
    raising r = true := by
  cases r <;> simp_all [isTransient, raising]

lemma retry_go_raising (responses : Nat → AttemptResult) (m i f : Nat)
    (hr : raising (responses i) = true) :
    retry_go responses m i (f + 1) =
      if i < m - 1 then
        ((retry_go responses m (i + 1) f).1,
         (retry_go responses m (i + 1) f).2.1 + 1,
         RETRY_DELAY * 2 ^ i :: (retry_go responses m (i + 1) f).2.2)
      else (none, 1, []) := by
  cases hres : responses i <;> simp_all [raising, retry_go]

lemma retry_go_allfail (responses : Nat → AttemptResult) (m : Nat)
    (h : ∀ j, raising (responses j) = true) :
    ∀ fuel i, i + fuel = m →
      retry_go responses m i fuel =
        (none, fuel,
          (List.range (fuel - 1)).map (fun j => RETRY_DELAY * 2 ^ (i + j))) := by
  intro fuel
  induction fuel with
  | zero => intro i _; simp [retry_go]
  | succ f ih =>
    intro i hi
    rw [retry_go_raising responses m i f (h i)]
    rcases Nat.eq_zero_or_pos f with hf | hf
    · subst hf
      have hni : ¬ i < m - 1 := by omega
      simp [hni]
    · have hlt : i < m - 1 := by omega
      rw [if_pos hlt, ih (i + 1) (by omega)]
      simp only [Prod.mk.injEq]
      refine ⟨trivial, trivial, ?_⟩
      have hrange : List.range (f + 1 - 1) =
          List.range ((f - 1) + 1) := by congr 1; omega
      rw [hrange, List.range_succ_eq_map, List.map_cons, List.map_map]
      refine List.cons_eq_cons.mpr ⟨by simp, ?_⟩
      apply List.map_congr_left
      intro a _
      simp only [Function.comp_apply, Nat.succ_eq_add_one]
      have harg : i + 1 + a = i + (a + 1) := by omega
      rw [harg]

lemma download_chunk_with_retry_allfail (responses : Nat → AttemptResult)
    (m : Nat) (h : ∀ j, raising (responses j) = true) :
    download_chunk_with_retry responses m =
      (none, m, (List.range (m - 1)).map (fun j => RETRY_DELAY * 2 ^ j)) := by
  rw [download_chunk_with_retry, retry_go_allfail responses m h m 0 (by omega)]
  simp only [Prod.mk.injEq]
  refine ⟨trivial, trivial, ?_⟩
  apply List.map_congr_left
  intro a _
  simp

/-! ## Generic lemmas about the chunk loop fold -/

lemma stepChunk_false (chunk_size : Nat) (fetch : Nat → Option (List Nat))
    (st : DLState) (k : Nat) :
    stepChunk chunk_size fetch (st, false) k = (st, false) := rfl

lemma foldl_stepChunk_false (chunk_size : Nat)
    (fetch : Nat → Option (List Nat)) (l : List Nat) (st : DLState) :
    l.foldl (stepChunk chunk_size fetch) (st, false) = (st, false) := by
  induction l with
  | nil => rfl
  | cons a l ih => rw [List.foldl_cons, stepChunk_false]; exact ih

lemma foldl_range_inv {α : Type} (f : α → Nat → α) (P : Nat → α → Prop) :
    ∀ (n : Nat) (a : α), P 0 a →
      (∀ m b, m < n → P m b → P (m + 1) (f b m)) →
      P n ((List.range n).foldl f a) := by
  intro n
  induction n with
  | zero => intro a h0 _; simpa using h0
  | succ n ih =>
    intro a h0 hstep
    rw [List.range_succ, List.foldl_append, List.foldl_cons, List.foldl_nil]
    exact hstep n _ (by omega) (ih a h0 (fun m b hm => hstep m b (by omega)))

/-! ## Lemmas about offset writes -/

lemma length_write_at {t data : List Nat} {start : Nat}
    (h : start + data.length ≤ t.length) :
    (write_at t start data).length = t.length := by
  simp only [write_at, List.length_append, List.length_take,
    List.length_replicate, List.length_drop]
  omega

lemma getD_write_at {t data : List Nat} {start : Nat}
    (h : start + data.length ≤ t.length) (p : Nat) :
    (write_at t start data).getD p 0 =
      if start ≤ p ∧ p < start + data.length then data.getD (p - start) 0
      else t.getD p 0 := by
  have hrep : List.replicate (start - t.length) (0 : Nat) = [] := by
    have h0 : start - t.length = 0 := by omega
    rw [h0, List.replicate_zero]
  have htake : (t.take start).length = start := by
    rw [List.length_take]; omega
  rw [write_at, hrep, List.append_nil, List.getD_eq_getElem?_getD,
    List.getElem?_append]
  have hlen2 : (List.take start t ++ data).length = start + data.length := by
    rw [List.length_append, htake]
  rw [hlen2]
  rcases Nat.lt_or_ge p (start + data.length) with hp2 | hp2
  · rw [if_pos hp2, List.getElem?_append, htake]
    rcases Nat.lt_or_ge p start with hp | hp
    · rw [if_pos hp, List.getElem?_take, if_pos hp,
        ← List.getD_eq_getElem?_getD, if_neg (by omega)]
    · rw [if_neg (by omega), ← List.getD_eq_getElem?_getD, if_pos ⟨hp, hp2⟩]
  · rw [if_neg (by omega), List.getElem?_drop,
      ← List.getD_eq_getElem?_getD, if_neg (by omega)]
    congr 1
    omega

/-! ## The chunk bytes -/

lemma length_chunkData {src : List Nat} {c i : Nat} :
    (chunkData src c i).length = min c (src.length - i * c) := by
  simp [chunkData]

lemma getD_chunkData {src : List Nat} {c k q : Nat} (hq : q < c)
    (hlt : k * c + q < src.length) :
    (chunkData src c k).getD q 0 = src.getD (k * c + q) 0 := by
  rw [chunkData, List.getD_eq_getElem?_getD, List.getElem?_take, if_pos hq,
    List.getElem?_drop, ← List.getD_eq_getElem?_getD]

lemma div_eq_iff_chunk {c : Nat} (hc : 0 < c) (p i : Nat) :
    p / c = i ↔ i * c ≤ p ∧ p < i * c + c := by
  constructor
  · intro h
    have hdm := Nat.div_add_mod p c
    have hmod : p % c < c := Nat.mod_lt _ hc
    have hcomm : c * (p / c) = (p / c) * c := Nat.mul_comm _ _
    subst h
    omega
  · intro ⟨h1, h2⟩
    exact Nat.div_eq_of_lt_le h1 (by rw [Nat.succ_mul]; omega)

lemma list_eq_of_getD {a b : List Nat} (hlen : a.length = b.length)
    (h : ∀ p, p < a.length → a.getD p 0 = b.getD p 0) : a = b := by
  apply List.ext_getElem hlen
  intro i h1 h2
  have := h i h1
  rwa [List.getD_eq_getElem _ _ h1, List.getD_eq_getElem _ _ h2] at this

lemma size_pos_of_total_pos {s c : Nat} (hc : 0 < c)
    (h : 0 < total_chunks s c) : 0 < s := by
  have h2 : 1 * c ≤ s + c - 1 := (Nat.le_div_iff_mul_le hc).mp h
  omega

lemma chunkIntact_write {src t : List Nat} {c s k : Nat} {S : Finset Nat}
    (hc : 0 < c) (hlen : src.length = s) (hk : k * c < s)
    (h : ChunkIntact src c s S t) :
    ChunkIntact src c s (insert k S)
      (write_at t (k * c) (chunkData src c k)) := by
  obtain ⟨ht, hcons⟩ := h
  have hdlen : (chunkData src c k).length = min c (s - k * c) := by
    rw [length_chunkData, hlen]
  have hbound : k * c + (chunkData src c k).length ≤ t.length := by
    rw [ht, hdlen]; omega
  constructor
  · rw [length_write_at hbound, ht]
  · intro p hp hmem
    rw [getD_write_at hbound p]
    by_cases hpk : p / c = k
    · have hz := (div_eq_iff_chunk hc p k).mp hpk
      have hin : k * c ≤ p ∧ p < k * c + (chunkData src c k).length := by
        rw [hdlen]; omega
      rw [if_pos hin, getD_chunkData (by omega) (by rw [hlen]; omega)]
      congr 1
      omega
    · have hout : ¬ (k * c ≤ p ∧ p < k * c + (chunkData src c k).length) := by
        rw [hdlen]
        intro hcontra
        exact hpk ((div_eq_iff_chunk hc p k).mpr (by omega))
      rw [if_neg hout]
      refine hcons p hp ?_
      rcases Finset.mem_insert.mp hmem with h1 | h1
      · exact absurd h1 hpk
      · exact h1

/-- Reduction: an already-completed ordinal is skipped. -/
lemma stepChunk_skip {c : Nat} {fetch : Nat → Option (List Nat)}
    {st : DLState} {k : Nat} (h : k ∈ st.completed) :
    stepChunk c fetch (st, true) k = (st, true) := by
  simp [stepChunk, h]

/-- Reduction: a failed fetch persists the ledger and exits the loop. -/
lemma stepChunk_fail {c : Nat} {fetch : Nat → Option (List Nat)}
    {st : DLState} {k : Nat} (h : k ∉ st.completed)
    (hf : fetch k = none) :
    stepChunk c fetch (st, true) k =
      ({ st with
         fetched := st.fetched ++ [k],
         savedLedgers := st.savedLedgers ++ [(st.completed, st.temp)] },
       false) := by
  simp [stepChunk, h, hf]

/-- Reduction: a successful fetch writes and records the chunk. -/
lemma stepChunk_success {c : Nat} {fetch : Nat → Option (List Nat)}
    {st : DLState} {k : Nat} {data : List Nat} (h : k ∉ st.completed)
    (hf : fetch k = some data) :
    stepChunk c fetch (st, true) k =
      ({ temp := write_at st.temp (k * c) data
         completed := insert k st.completed
         fetched := st.fetched ++ [k]
         savedLedgers :=
           if (insert k st.completed).card % 10 = 0 then
             st.savedLedgers ++
               [(insert k st.completed, write_at st.temp (k * c) data)]
           else st.savedLedgers }, true) := by
  simp [stepChunk, h, hf]

/-- One loop iteration preserves the invariant "the temp file holds the
true bytes of every completed chunk, and so does every ledger snapshot
persisted so far". -/
lemma stepChunk_intact {c s : Nat} {src : List Nat}
    {fetch : Nat → Option (List Nat)} (hc : 0 < c) (hlen : src.length = s)
    {k : Nat} (hk : k * c < s)
    (hfetchk : ∀ d, fetch k = some d → d = chunkData src c k)
    {x : DLState × Bool}
    (hx : ChunkIntact src c s x.1.completed x.1.temp ∧
      ∀ e ∈ x.1.savedLedgers, ChunkIntact src c s e.1 e.2) :
    ChunkIntact src c s (stepChunk c fetch x k).1.completed
        (stepChunk c fetch x k).1.temp ∧
      ∀ e ∈ (stepChunk c fetch x k).1.savedLedgers,
        ChunkIntact src c s e.1 e.2 := by
  obtain ⟨st, ok⟩ := x
  cases ok with
  | false => exact hx
  | true =>
    by_cases hmem : k ∈ st.completed
    · rw [stepChunk_skip hmem]
      exact hx
    · cases hf : fetch k with
      | none =>
        rw [stepChunk_fail hmem hf]
        refine ⟨hx.1, ?_⟩
        intro e he
        rcases List.mem_append.mp he with h1 | h1
        · exact hx.2 e h1
        · rw [List.mem_singleton.mp h1]
          exact hx.1
      | some data =>
        have hdata : data = chunkData src c k := hfetchk data hf
        subst hdata
        rw [stepChunk_success hmem hf]
        have hw := chunkIntact_write hc hlen hk hx.1
        refine ⟨hw, ?_⟩
        intro e he
        by_cases hcard : (insert k st.completed).card % 10 = 0
        · rw [if_pos hcard] at he
          rcases List.mem_append.mp he with h1 | h1
          · exact hx.2 e h1
          · rw [List.mem_singleton.mp h1]
            exact hw
        · rw [if_neg hcard] at he
          exact hx.2 e he

/-- Every state reached by the loop keeps the completed set flushed to
the temp file, and every ledger persisted on the way was flushed at the
moment of its persist. -/
lemma runLoop_intact (c s : Nat) (src temp0 : List Nat) (S0 : Finset Nat)
    (fetch : Nat → Option (List Nat)) (hc : 0 < c) (hlen : src.length = s)
    (ht0 : temp0.length = s)
    (hinit : ∀ p, p < s → p / c ∈ S0 → temp0.getD p 0 = src.getD p 0)
    (hfetch : ∀ i, i < total_chunks s c →
      ∀ d, fetch i = some d → d = chunkData src c i) :
    ChunkIntact src c s (runLoop c fetch temp0 S0 (total_chunks s c)).1.completed
        (runLoop c fetch temp0 S0 (total_chunks s c)).1.temp ∧
      ∀ e ∈ (runLoop c fetch temp0 S0 (total_chunks s c)).1.savedLedgers,
        ChunkIntact src c s e.1 e.2 := by
  refine foldl_range_inv (stepChunk c fetch)
    (fun _ x => ChunkIntact src c s x.1.completed x.1.temp ∧
      ∀ e ∈ x.1.savedLedgers, ChunkIntact src c s e.1 e.2)
    (total_chunks s c) (initState temp0 S0, true) ⟨⟨ht0, hinit⟩, by simp [initState]⟩ ?_
  intro m b hm hb
  have hs : 0 < s := size_pos_of_total_pos hc (by omega)
  exact stepChunk_intact hc hlen (start_lt_of_lt_total hs hc hm)
    (fun d hd => hfetch m hm d hd) hb

lemma outstandingBelow_zero (S0 : Finset Nat) : outstandingBelow S0 0 = [] := rfl

lemma outstandingBelow_succ (S0 : Finset Nat) (m : Nat) :
    outstandingBelow S0 (m + 1) =
      outstandingBelow S0 m ++ if m ∈ S0 then [] else [m] := by
  rw [outstandingBelow, List.range_succ, List.filter_append]
  by_cases hm : m ∈ S0 <;> simp [outstandingBelow, hm]

lemma union_range_succ {S0 : Finset Nat} {m : Nat} :
    S0 ∪ Finset.range (m + 1) = insert m (S0 ∪ Finset.range m) := by
  rw [Finset.range_succ, Finset.union_insert]

/-- One loop iteration advances the progress invariant when the fetch of
an outstanding chunk succeeds. -/
lemma stepChunk_progress {c : Nat} {fetch : Nat → Option (List Nat)}
    {S0 : Finset Nat} {m : Nat} (hm : m ∉ S0 → fetch m ≠ none)
    {x : DLState × Bool}
    (hx : x.2 = true ∧ x.1.completed = S0 ∪ Finset.range m ∧
      x.1.fetched = outstandingBelow S0 m) :
    (stepChunk c fetch x m).2 = true ∧
    (stepChunk c fetch x m).1.completed = S0 ∪ Finset.range (m + 1) ∧
    (stepChunk c fetch x m).1.fetched = outstandingBelow S0 (m + 1) := by
  obtain ⟨st, ok⟩ := x
  obtain ⟨hok, hcomp, hfet⟩ := hx
  simp only at hok hcomp hfet
  subst hok
  by_cases hmS : m ∈ S0
  · have hmem : m ∈ st.completed := by
      rw [hcomp]; exact Finset.mem_union_left _ hmS
    rw [stepChunk_skip hmem]
    refine ⟨rfl, ?_, ?_⟩
    · rw [hcomp]
      ext a
      simp only [Finset.mem_union, Finset.mem_range]
      constructor
      · rintro (h | h)
        · exact Or.inl h
        · exact Or.inr (by omega)
      · rintro (h | h)
        · exact Or.inl h
        · rcases Nat.lt_succ_iff_lt_or_eq.mp h with h2 | h2
          · exact Or.inr h2
          · subst h2; exact Or.inl hmS
    · rw [hfet, outstandingBelow_succ, if_pos hmS, List.append_nil]
  · have hmem : m ∉ st.completed := by
      rw [hcomp]
      simp [Finset.mem_union, Finset.mem_range, hmS]
    cases hf : fetch m with
    | none => exact absurd hf (hm hmS)
    | some data =>
      rw [stepChunk_success hmem hf]
      refine ⟨rfl, ?_, ?_⟩
      · simp only
        rw [hcomp, ← union_range_succ]
      · simp only
        rw [hfet, outstandingBelow_succ, if_neg hmS]

/-- If every outstanding fetch below `total` succeeds, the loop
finishes with `ok = true`, the completed set `S0 ∪ range total`, and
fetched exactly the outstanding ordinals. -/
lemma runLoop_progress (c : Nat) (fetch : Nat → Option (List Nat))
    (S0 : Finset Nat) (temp0 : List Nat) (total : Nat)
    (hsucc : ∀ i, i < total → i ∉ S0 → fetch i ≠ none) :
    (runLoop c fetch temp0 S0 total).2 = true ∧
    (runLoop c fetch temp0 S0 total).1.completed = S0 ∪ Finset.range total ∧
    (runLoop c fetch temp0 S0 total).1.fetched = outstandingBelow S0 total := by
  refine foldl_range_inv (stepChunk c fetch)
    (fun m x => x.2 = true ∧ x.1.completed = S0 ∪ Finset.range m ∧
      x.1.fetched = outstandingBelow S0 m)
    total (initState temp0 S0, true) ⟨rfl, by simp [initState], rfl⟩ ?_
  intro m b hm hb
  exact stepChunk_progress (fun hmS => hsucc m hm hmS) hb

/-- A run in which every outstanding chunk is served its true bytes
finishes successfully with the temp file equal to the resource bytes. -/
lemma runLoop_temp_eq_src (c s : Nat) (src temp0 : List Nat)
    (S0 : Finset Nat) (fetch : Nat → Option (List Nat)) (hc : 0 < c)
    (hlen : src.length = s) (ht0 : temp0.length = s)
    (hinit : ∀ p, p < s → p / c ∈ S0 → temp0.getD p 0 = src.getD p 0)
    (hfetch : ∀ i, i < total_chunks s c → fetch i = some (chunkData src c i)) :
    (runLoop c fetch temp0 S0 (total_chunks s c)).2 = true ∧
    (runLoop c fetch temp0 S0 (total_chunks s c)).1.temp = src ∧
    (runLoop c fetch temp0 S0 (total_chunks s c)).1.fetched =
      outstandingBelow S0 (total_chunks s c) := by
  have hprog := runLoop_progress c fetch S0 temp0 (total_chunks s c)
    (fun i hi _ => by rw [hfetch i hi]; exact Option.some_ne_none _)
  have hint := runLoop_intact c s src temp0 S0 fetch hc hlen ht0 hinit
    (fun i hi d hd => by rw [hfetch i hi] at hd; exact (Option.some.inj hd).symm)
  obtain ⟨hok, hcomp, hfet⟩ := hprog
  refine ⟨hok, ?_, hfet⟩
  obtain ⟨⟨hlen2, hcons⟩, _⟩ := hint
  apply list_eq_of_getD (by rw [hlen2, hlen])
  intro p hp
  rw [hlen2] at hp
  have hs : 0 < s := by omega
  have hdiv : p / c < total_chunks s c := by
    refine (Nat.div_lt_iff_lt_mul hc).mpr ?_
    have := le_total_chunks_mul hs hc
    omega
  refine hcons p hp ?_
  rw [hcomp]
  exact Finset.mem_union_right _ (Finset.mem_range.mpr hdiv)

/-- Entering `download_with_resume` with an existing temp file and a
parseable ledger runs the chunk loop directly. -/
lemma download_with_resume_resume_eq (c s : Nat) (vh : Option (List Char))
    (hashFn : List Nat → List Char) (fetch : Nat → Option (List Nat))
    (dest0 : Option (List Nat)) (t0 : List Nat) (S0 : Finset Nat) :
    download_with_resume c s vh hashFn fetch (resumeFS dest0 t0 S0) =
      download_loop c vh hashFn fetch (resumeFS dest0 t0 S0) t0 S0
        (total_chunks s c) := rfl

/-- Entering `download_with_resume` fresh (no temp file, no ledger) on a
resource of positive reported size pre-allocates a zero-filled temp file
and runs the chunk loop. -/
lemma download_with_resume_fresh_eq (c s : Nat) (vh : Option (List Char))
    (hashFn : List Nat → List Char) (fetch : Nat → Option (List Nat))
    (dest0 : Option (List Nat)) (hs : 0 < s) :
    download_with_resume c s vh hashFn fetch (freshFS dest0) =
      download_loop c vh hashFn fetch (freshFS dest0)
        (List.replicate s 0) ∅ (total_chunks s c) := by
  have hns : s ≠ 0 := by omega
  simp [download_with_resume, freshFS, load_metadata, hns]

/-- C7: resuming a download whose ledger holds completed ordinals `S0`
fetches exactly the ordinals of `[0, chunkCount)` outside `S0` and
publishes; a fresh, non-resumed download of the same resource fetches
every ordinal, assembles the very same bytes and renames them onto the
destination, so the final artifact is byte-identical.  (A fresh run of
fewer than 10 chunks then raises at the ledger unlink, line 200, after
the rename — see `publish_step` — so only the destination contents, not
the fresh run's return value, are asserted.) -/
theorem resume_correctness (c s : Nat) (src t0 : List Nat) (S0 : Finset Nat)
    (hashFn : List Nat → List Char) (fetch : Nat → Option (List Nat))
    (dest0 dest1 : Option (List Nat)) (hc : 0 < c) (hs : 0 < s)
    (hlen : src.length = s) (ht0 : t0.length = s)
    (hinit : ∀ p, p < s → p / c ∈ S0 → t0.getD p 0 = src.getD p 0)
    (hfetch : ∀ i, i < total_chunks s c → fetch i = some (chunkData src c i)) :
    (download_with_resume c s none hashFn fetch
        (resumeFS dest0 t0 S0)).outcome = .published ∧
    (download_with_resume c s none hashFn fetch
        (resumeFS dest0 t0 S0)).fetched =
      outstandingBelow S0 (total_chunks s c) ∧
    (download_with_resume c s none hashFn fetch
        (resumeFS dest0 t0 S0)).fs.dest = some src ∧
    (download_with_resume c s none hashFn fetch
        (freshFS dest1)).fetched = outstandingBelow ∅ (total_chunks s c) ∧
    (download_with_resume c s none hashFn fetch (freshFS dest1)).fs.dest =
      (download_with_resume c s none hashFn fetch
        (resumeFS dest0 t0 S0)).fs.dest ∧
    (download_with_resume c s none hashFn fetch (freshFS dest1)).fs.temp =
      none := by
  obtain ⟨hok1, htemp1, hfet1⟩ :=
    runLoop_temp_eq_src c s src t0 S0 fetch hc hlen ht0 hinit hfetch
  obtain ⟨hok2, htemp2, hfet2⟩ :=
    runLoop_temp_eq_src c s src (List.replicate s 0) ∅ fetch hc hlen
      (by simp) (by simp) hfetch
  have hmeta : (resumeFS dest0 t0 S0).meta.isSome = true := rfl
  rw [download_with_resume_resume_eq,
    download_with_resume_fresh_eq c s none hashFn fetch dest1 hs]
  simp [download_loop, hok1, hok2, htemp1, htemp2, hfet1, hfet2,
    publish_step_of_meta_isSome _ hmeta, publish_step_dest,
    publish_step_temp, publish_step_fetched]

/-- Witness for C7: 5-byte resource, chunk size 2, ledger already holds
chunk 0, whose two bytes are present in the temp file. -/
theorem resume_correctness_witness :
    (0 < 2 ∧ 0 < 5 ∧ ([1, 2, 3, 4, 5] : List Nat).length = 5 ∧
      ([1, 2, 9, 9, 9] : List Nat).length = 5 ∧
      (∀ p, p < 5 → p / 2 ∈ ({0} : Finset Nat) →
        ([1, 2, 9, 9, 9] : List Nat).getD p 0 =
          ([1, 2, 3, 4, 5] : List Nat).getD p 0) ∧
      (∀ i, i < total_chunks 5 2 →
        (fun i => some (chunkData [1, 2, 3, 4, 5] 2 i)) i =
          some (chunkData [1, 2, 3, 4, 5] 2 i))) ∧
    (download_with_resume 2 5 none (fun _ => ['h'])
        (fun i => some (chunkData [1, 2, 3, 4, 5] 2 i))
        (resumeFS none [1, 2, 9, 9, 9] {0})).outcome = .published := by
  refine ⟨⟨by decide, by decide, by decide, by decide, by decide,
    fun i _ => rfl⟩, ?_⟩
  exact (resume_correctness 2 5 [1, 2, 3, 4, 5] [1, 2, 9, 9, 9] {0}
    (fun _ => ['h']) (fun i => some (chunkData [1, 2, 3, 4, 5] 2 i)) none none
    (by decide) (by decide) (by decide) (by decide) (by decide)
    (fun i _ => rfl)).1

/-- C3: when the whole-file hash of the assembled temp file differs
(case-insensitively) from the expected digest, the temp file is never
renamed onto the destination (the destination is unchanged), the temp
file is retained, and the download returns failure. -/
theorem integrity_gate_blocks_publish (c s : Nat) (src t0 : List Nat)
    (S0 : Finset Nat) (vh : List Char) (hashFn : List Nat → List Char)
    (fetch : Nat → Option (List Nat)) (dest0 : Option (List Nat))
    (hc : 0 < c) (hlen : src.length = s) (ht0 : t0.length = s)
    (hinit : ∀ p, p < s → p / c ∈ S0 → t0.getD p 0 = src.getD p 0)
    (hfetch : ∀ i, i < total_chunks s c → fetch i = some (chunkData src c i))
    (hmis : ¬ lower (hashFn src) = lower vh) :
    (download_with_resume c s (some vh) hashFn fetch
        (resumeFS dest0 t0 S0)).outcome = .failed ∧
    (download_with_resume c s (some vh) hashFn fetch
        (resumeFS dest0 t0 S0)).fs.dest = dest0 ∧
    (download_with_resume c s (some vh) hashFn fetch
        (resumeFS dest0 t0 S0)).fs.temp = some src := by
  obtain ⟨hok, htemp, hfet⟩ :=
    runLoop_temp_eq_src c s src t0 S0 fetch hc hlen ht0 hinit hfetch
  rw [download_with_resume_resume_eq]
  simp [download_loop, hok, htemp, hmis, resumeFS]

/-- Witness for C3: the computed digest of the assembled file is "aa"
but the manifest expects "BB" (lower-cased "bb"); nothing is published. -/
theorem integrity_gate_blocks_publish_witness :
    (0 < 2 ∧ ([1, 2, 3] : List Nat).length = 3 ∧
      ([0, 0, 0] : List Nat).length = 3 ∧
      ¬ lower ['a', 'a'] = lower ['B', 'B']) ∧
    (download_with_resume 2 3 (some ['B', 'B']) (fun _ => ['a', 'a'])
        (fun i => some (chunkData [1, 2, 3] 2 i))
        (resumeFS (some [7]) [0, 0, 0] ∅)).outcome = .failed ∧
    (download_with_resume 2 3 (some ['B', 'B']) (fun _ => ['a', 'a'])
        (fun i => some (chunkData [1, 2, 3] 2 i))
        (resumeFS (some [7]) [0, 0, 0] ∅)).fs.dest = some [7] := by
  have h := integrity_gate_blocks_publish 2 3 [1, 2, 3] [0, 0, 0] ∅
    ['B', 'B'] (fun _ => ['a', 'a'])
    (fun i => some (chunkData [1, 2, 3] 2 i)) (some [7])
    (by decide) (by decide) (by decide) (by decide) (fun i _ => rfl)
    (by decide)
  exact ⟨⟨by decide, by decide, by decide, by decide⟩, h.1, h.2.1⟩

/-- C8 (amended): an artifact without an expected digest downloads with
no verification step — the hash function is never consulted — and, the
ledger file being present to unlink (a resumed run), publishes and
returns the plain boolean `True`; the result is identical to that of a
verified success, so nothing in the outcome flags it as unverified. -/
theorem missing_digest_publishes_unflagged (c s : Nat)
    (src t0 : List Nat) (S0 : Finset Nat) (hashFn : List Nat → List Char)
    (fetch : Nat → Option (List Nat)) (dest0 : Option (List Nat))
    (hc : 0 < c) (hlen : src.length = s) (ht0 : t0.length = s)
    (hinit : ∀ p, p < s → p / c ∈ S0 → t0.getD p 0 = src.getD p 0)
    (hfetch : ∀ i, i < total_chunks s c → fetch i = some (chunkData src c i)) :
    returnValue (download_with_resume c s none hashFn fetch
        (resumeFS dest0 t0 S0)) = true ∧
    (download_with_resume c s none hashFn fetch
        (resumeFS dest0 t0 S0)).outcome = .published ∧
    (∀ v : List Char, lower (hashFn src) = lower v →
      download_with_resume c s none hashFn fetch (resumeFS dest0 t0 S0) =
        download_with_resume c s (some v) hashFn fetch
          (resumeFS dest0 t0 S0)) ∧
    (∀ hashFn2 : List Nat → List Char,
      download_with_resume c s none hashFn fetch (resumeFS dest0 t0 S0) =
        download_with_resume c s none hashFn2 fetch
          (resumeFS dest0 t0 S0)) := by
  obtain ⟨hok, htemp, hfet⟩ :=
    runLoop_temp_eq_src c s src t0 S0 fetch hc hlen ht0 hinit hfetch
  have hmeta : (resumeFS dest0 t0 S0).meta.isSome = true := rfl
  refine ⟨?_, ?_, ?_, ?_⟩
  · rw [download_with_resume_resume_eq]
    simp [download_loop, hok, returnValue, publish_step_of_meta_isSome _ hmeta]
  · rw [download_with_resume_resume_eq]
    simp [download_loop, hok, publish_step_of_meta_isSome _ hmeta]
  · intro v hv
    rw [download_with_resume_resume_eq, download_with_resume_resume_eq]
    simp [download_loop, hok, htemp, hv]
  · intro hashFn2
    rw [download_with_resume_resume_eq, download_with_resume_resume_eq]
    simp [download_loop, hok]

/-- Witness for the amended C8. -/
theorem missing_digest_publishes_unflagged_witness :
    (0 < 2 ∧ ([5, 6, 7] : List Nat).length = 3 ∧
      ([0, 0, 0] : List Nat).length = 3) ∧
    returnValue (download_with_resume 2 3 none (fun _ => ['a'])
        (fun i => some (chunkData [5, 6, 7] 2 i))
        (resumeFS none [0, 0, 0] ∅)) = true := by
  have h := missing_digest_publishes_unflagged 2 3 [5, 6, 7] [0, 0, 0] ∅
    (fun _ => ['a']) (fun i => some (chunkData [5, 6, 7] 2 i)) none
    (by decide) (by decide) (by decide) (by decide) (fun i _ => rfl)
  exact ⟨⟨by decide, by decide, by decide⟩, h.1⟩

/-- Counterexample for C8 as stated: a concrete artifact whose manifest
entry lacks a digest, resumed from a reachable on-disk state (a previous
run pre-allocated the temp file and persisted an empty-progress ledger
on its error path, then this run downloads both chunks).  The download
publishes and returns `True`, and the whole result value — including
that boolean, the only thing the caller sees — is equal to the result of
the same download with a matching digest supplied; there is no
"unverified" status flag anywhere in the outcome. -/
theorem missing_digest_no_flag_counterexample :
    (download_with_resume 2 4 none (fun _ => ['a'])
        (fun i => some (chunkData [5, 6, 7, 8] 2 i))
        (resumeFS none [0, 0, 0, 0] ∅)).outcome = .published ∧
    download_with_resume 2 4 none (fun _ => ['a'])
        (fun i => some (chunkData [5, 6, 7, 8] 2 i))
        (resumeFS none [0, 0, 0, 0] ∅) =
      download_with_resume 2 4 (some ['A']) (fun _ => ['a'])
        (fun i => some (chunkData [5, 6, 7, 8] 2 i))
        (resumeFS none [0, 0, 0, 0] ∅) ∧
    returnValue (download_with_resume 2 4 none (fun _ => ['a'])
        (fun i => some (chunkData [5, 6, 7, 8] 2 i))
        (resumeFS none [0, 0, 0, 0] ∅)) = true ∧
    returnValue (download_with_resume 2 4 none (fun _ => ['a'])
        (fun i => some (chunkData [5, 6, 7, 8] 2 i))
        (resumeFS none [0, 0, 0, 0] ∅)) =
      returnValue (download_with_resume 2 4 (some ['A']) (fun _ => ['a'])
        (fun i => some (chunkData [5, 6, 7, 8] 2 i))
        (resumeFS none [0, 0, 0, 0] ∅)) := by
  refine ⟨by decide, by decide, by decide, by decide⟩

/-- Behaviour of the loop when every outstanding chunk before `k`
succeeds and chunk `k` (outstanding) fails: the loop exits with `False`,
having completed `S0 ∪ [0, k)`, fetched the outstanding ordinals below
`k` and then `k`, and the last ledger persisted is exactly the in-memory
completed set at the moment of failure. -/
lemma runLoop_fail_at (c : Nat) (fetch : Nat → Option (List Nat))
    (S0 : Finset Nat) (temp0 : List Nat) (total k : Nat)
    (hk : k < total) (hkS : k ∉ S0)
    (hpre : ∀ i, i < k → i ∉ S0 → fetch i ≠ none)
    (hfail : fetch k = none) :
    (runLoop c fetch temp0 S0 total).2 = false ∧
    (runLoop c fetch temp0 S0 total).1.completed = S0 ∪ Finset.range k ∧
    (runLoop c fetch temp0 S0 total).1.fetched =
      outstandingBelow S0 k ++ [k] ∧
    ∃ t, (runLoop c fetch temp0 S0 total).1.savedLedgers.getLast? =
      some (S0 ∪ Finset.range k, t) := by
  have h := foldl_range_inv (stepChunk c fetch)
    (fun m x =>
      (m ≤ k → x.2 = true ∧ x.1.completed = S0 ∪ Finset.range m ∧
        x.1.fetched = outstandingBelow S0 m) ∧
      (k < m → x.2 = false ∧ x.1.completed = S0 ∪ Finset.range k ∧
        x.1.fetched = outstandingBelow S0 k ++ [k] ∧
        ∃ t, x.1.savedLedgers.getLast? = some (S0 ∪ Finset.range k, t)))
    total (initState temp0 S0, true)
    ⟨fun _ => ⟨rfl, by simp [initState], rfl⟩,
      fun hcon => absurd hcon (by omega)⟩
    ?_
  · exact h.2 hk
  · intro m b hm hb
    rcases Nat.lt_trichotomy m k with hmk | hmk | hmk
    · obtain ⟨hok, hcomp, hfet⟩ := hb.1 (by omega)
      have hstep := stepChunk_progress (c := c) (fun hmS => hpre m hmk hmS)
        ⟨hok, hcomp, hfet⟩
      exact ⟨fun _ => hstep, fun hcon => absurd hcon (by omega)⟩
    · subst hmk
      obtain ⟨hok, hcomp, hfet⟩ := hb.1 (le_refl m)
      obtain ⟨st, ok⟩ := b
      simp only at hok hcomp hfet
      subst hok
      have hmem : m ∉ st.completed := by
        rw [hcomp]
        simp [Finset.mem_union, Finset.mem_range, hkS]
      rw [stepChunk_fail hmem hfail]
      refine ⟨fun hcon => absurd hcon (by omega), fun _ => ?_⟩
      refine ⟨rfl, hcomp, ?_, ?_⟩
      · simp only
        rw [hfet]
      · refine ⟨st.temp, ?_⟩
        simp only
        rw [List.getLast?_concat, hcomp]
    · obtain ⟨hok, hcomp, hfet, hex⟩ := hb.2 hmk
      obtain ⟨st, ok⟩ := b
      simp only at hok
      subst hok
      rw [stepChunk_false]
      exact ⟨fun hcon => absurd hcon (by omega),
        fun _ => ⟨rfl, hcomp, hfet, hex⟩⟩

/-- C10: when a chunk fetch fails inside the loop, `download_with_resume`
persists the current metadata before returning `False`: the ledger file
afterwards holds exactly the in-memory completed set — the loaded set
plus every ordinal completed in this run — even though routine saves
happen only every 10th completed chunk. -/
theorem chunk_failure_saves_metadata (c s : Nat) (t0 : List Nat)
    (S0 : Finset Nat) (k : Nat) (vh : Option (List Char))
    (hashFn : List Nat → List Char) (fetch : Nat → Option (List Nat))
    (dest0 : Option (List Nat)) (hk : k < total_chunks s c) (hkS : k ∉ S0)
    (hpre : ∀ i, i < k → i ∉ S0 → fetch i ≠ none)
    (hfail : fetch k = none) :
    (download_with_resume c s vh hashFn fetch
        (resumeFS dest0 t0 S0)).outcome = .failed ∧
    (download_with_resume c s vh hashFn fetch
        (resumeFS dest0 t0 S0)).fs.meta =
      some (some (S0 ∪ Finset.range k)) ∧
    (download_with_resume c s vh hashFn fetch
        (resumeFS dest0 t0 S0)).fetched =
      outstandingBelow S0 k ++ [k] := by
  obtain ⟨hok, hcomp, hfet, t, hlast⟩ :=
    runLoop_fail_at c fetch S0 t0 (total_chunks s c) k hk hkS hpre hfail
  rw [download_with_resume_resume_eq]
  simp [download_loop, hok, hfet, metaAfterRun, hlast]

/-- Witness for C10: of 4 chunks, chunk 0 is already in the ledger,
chunks 1 and 2 download, chunk 3 fails; the ledger file then holds
`{0, 1, 2}` even though no routine (every-10th) save fired. -/
theorem chunk_failure_saves_metadata_witness :
    (3 < total_chunks 8 2 ∧ (3 : Nat) ∉ ({0} : Finset Nat) ∧
      (∀ i, i < 3 → i ∉ ({0} : Finset Nat) →
        (fun j => if j < 3 then some (chunkData [1, 2, 3, 4, 5, 6, 7, 8] 2 j)
          else none) i ≠ none) ∧
      (fun j => if j < 3 then some (chunkData [1, 2, 3, 4, 5, 6, 7, 8] 2 j)
        else none) 3 = none) ∧
    (download_with_resume 2 8 none (fun _ => ['a'])
        (fun j => if j < 3 then some (chunkData [1, 2, 3, 4, 5, 6, 7, 8] 2 j)
          else none)
        (resumeFS none [1, 2, 0, 0, 0, 0, 0, 0] {0})).fs.meta =
      some (some (({0} : Finset Nat) ∪ Finset.range 3)) := by
  have h := chunk_failure_saves_metadata 2 8 [1, 2, 0, 0, 0, 0, 0, 0] {0} 3
    none (fun _ => ['a'])
    (fun j => if j < 3 then some (chunkData [1, 2, 3, 4, 5, 6, 7, 8] 2 j)
      else none) none (by decide) (by decide)
    (fun i hi _ => by simp [hi]) (by decide)
  exact ⟨⟨by decide, by decide, fun i hi _ => by simp [hi], by decide⟩, h.2.1⟩

/-- C6: a chunk fetch whose every attempt raises a transient error is
attempted exactly `max_retries` times, sleeping
`RETRY_DELAY * 2 ^ attempt` between consecutive attempts, and finally
raises (returns no bytes); a download whose chunk fetches all behave
this way is reported failed. -/
theorem transient_retry_bound (responses : Nat → AttemptResult) (m : Nat)
    (htrans : ∀ j, isTransient (responses j) = true) :
    download_chunk_with_retry responses m =
      (none, m, (List.range (m - 1)).map (fun j => RETRY_DELAY * 2 ^ j)) ∧
    (∀ c s : Nat, 0 < c → 0 < s →
      ∀ (hashFn : List Nat → List Char) (vh : Option (List Char))
        (dest0 : Option (List Nat)) (t0 : List Nat),
      (download_with_resume c s vh hashFn
          (fun _ => (download_chunk_with_retry responses m).1)
          (resumeFS dest0 t0 ∅)).outcome = .failed) := by
  have hall := download_chunk_with_retry_allfail responses m
    (fun j => isTransient_raising (htrans j))
  refine ⟨hall, ?_⟩
  intro c s hc hs hashFn vh dest0 t0
  have hfail : (fun _ : Nat => (download_chunk_with_retry responses m).1) 0 =
      (none : Option (List Nat)) := by
    rw [hall]
  obtain ⟨hok, hcomp, hfet, t, hlast⟩ :=
    runLoop_fail_at c (fun _ => (download_chunk_with_retry responses m).1)
      ∅ t0 (total_chunks s c) 0 (total_chunks_pos hs hc) (by simp)
      (fun i hi _ => absurd hi (Nat.not_lt_zero i)) hfail
  rw [download_with_resume_resume_eq]
  simp [download_loop, hok]

/-- Witness for C6 at the default configuration: three attempts, delays
5 s and 10 s, then failure of the download. -/
theorem transient_retry_bound_witness :
    (∀ j : Nat, isTransient ((fun _ => AttemptResult.netErr) j) = true) ∧
    download_chunk_with_retry (fun _ => AttemptResult.netErr) MAX_RETRIES =
      (none, 3, [5, 10]) ∧
    (download_with_resume 2 4 none (fun _ => ['a'])
        (fun _ => (download_chunk_with_retry
          (fun _ => AttemptResult.netErr) MAX_RETRIES).1)
        (resumeFS none [0, 0, 0, 0] ∅)).outcome = .failed := by
  have h := transient_retry_bound (fun _ => AttemptResult.netErr) MAX_RETRIES
    (fun j => rfl)
  refine ⟨fun j => rfl, ?_, ?_⟩
  · rw [h.1]
    rfl
  · exact h.2 2 4 (by decide) (by decide) (fun _ => ['a']) none none
      [0, 0, 0, 0]

/-- When the very first chunk fetch fails, the loop exits immediately:
nothing is written to the temp file, the (empty-progress) ledger is
persisted, and the loop reports failure. -/
lemma runLoop_first_fail (c : Nat) (fetch : Nat → Option (List Nat))
    (temp0 : List Nat) (total : Nat) (htot : 0 < total)
    (hfail : fetch 0 = none) :
    runLoop c fetch temp0 ∅ total =
      ({ temp := temp0, completed := ∅, fetched := [0],
         savedLedgers := [(∅, temp0)] }, false) := by
  obtain ⟨n, rfl⟩ : ∃ n, total = n + 1 := ⟨total - 1, by omega⟩
  rw [runLoop, List.range_succ_eq_map, List.foldl_cons,
    stepChunk_fail (by simp [initState]) hfail, foldl_stepChunk_false]
  rfl

/-- Counterexample for C2 as stated: with the server answering every
ranged request with HTTP 200 (full body), `download_chunk_with_retry`
does NOT raise a non-retriable error immediately — it retries the
request under the backoff policy, making all 3 attempts with backoff
delays 5 s and 10 s before raising. -/
theorem full_body_retried_counterexample :
    (download_chunk_with_retry (fun _ => AttemptResult.status200 [7])
      MAX_RETRIES).2.1 = 3 ∧
    (download_chunk_with_retry (fun _ => AttemptResult.status200 [7])
      MAX_RETRIES).2.2 = [5, 10] ∧
    ¬ (download_chunk_with_retry (fun _ => AttemptResult.status200 [7])
      MAX_RETRIES).2.1 ≤ 1 := by
  refine ⟨by decide, by decide, by decide⟩

/-- C2 (amended): a 200 full-body answer to a ranged request makes the
chunk fetch raise an exception that is retried like any other error;
after `MAX_RETRIES` attempts (with backoff delays
`RETRY_DELAY * 2 ^ attempt`) the fetch raises, no byte of any of those
responses is returned or written to the temp file, and the artifact
download is reported failed. -/
theorem full_body_aborts_after_retries (b : List Nat)
    (responses : Nat → AttemptResult)
    (h200 : ∀ j, responses j = AttemptResult.status200 b) :
    download_chunk_with_retry responses MAX_RETRIES =
      (none, MAX_RETRIES,
        [RETRY_DELAY * 2 ^ 0, RETRY_DELAY * 2 ^ 1]) ∧
    (∀ c s : Nat, 0 < c → 0 < s →
      ∀ (hashFn : List Nat → List Char) (vh : Option (List Char))
        (dest0 : Option (List Nat)) (t0 : List Nat),
      (download_with_resume c s vh hashFn
          (fun _ => (download_chunk_with_retry responses MAX_RETRIES).1)
          (resumeFS dest0 t0 ∅)).outcome = .failed ∧
      (download_with_resume c s vh hashFn
          (fun _ => (download_chunk_with_retry responses MAX_RETRIES).1)
          (resumeFS dest0 t0 ∅)).fs.temp = some t0) := by
  have hraise : ∀ j, raising (responses j) = true := by
    intro j
    rw [h200 j]
    rfl
  have hall := download_chunk_with_retry_allfail responses MAX_RETRIES hraise
  refine ⟨hall, ?_⟩
  intro c s hc hs hashFn vh dest0 t0
  have hfail : (fun _ : Nat =>
      (download_chunk_with_retry responses MAX_RETRIES).1) 0 =
      (none : Option (List Nat)) := by
    rw [hall]
  have hrun := runLoop_first_fail c
    (fun _ => (download_chunk_with_retry responses MAX_RETRIES).1) t0
    (total_chunks s c) (total_chunks_pos hs hc) hfail
  rw [download_with_resume_resume_eq]
  simp [download_loop, hrun, resumeFS]

/-- Witness for the amended C2. -/
theorem full_body_aborts_after_retries_witness :
    (∀ j : Nat, (fun _ => AttemptResult.status200 [9]) j =
      AttemptResult.status200 [9]) ∧
    download_chunk_with_retry (fun _ => AttemptResult.status200 [9])
      MAX_RETRIES = (none, MAX_RETRIES,
        [RETRY_DELAY * 2 ^ 0, RETRY_DELAY * 2 ^ 1]) ∧
    (download_with_resume 2 4 none (fun _ => ['a'])
        (fun _ => (download_chunk_with_retry
          (fun _ => AttemptResult.status200 [9]) MAX_RETRIES).1)
        (resumeFS none [3, 3, 3, 3] ∅)).fs.temp = some [3, 3, 3, 3] := by
  have h := full_body_aborts_after_retries [9]
    (fun _ => AttemptResult.status200 [9]) (fun j => rfl)
  exact ⟨fun j => rfl, h.1,
    (h.2 2 4 (by decide) (by decide) (fun _ => ['a']) none none
      [3, 3, 3, 3]).2⟩

/-- C4 (behaviour at the failing input): `load_metadata` on a ledger
file whose contents are unparseable raises the JSON decode error
instead of returning the fresh empty ledger, the exception propagates
out of `download_with_resume` (nothing is fetched and the artifact
download dies), rather than the download starting over. -/
theorem corrupt_ledger_raises (c s : Nat) (vh : Option (List Char))
    (hashFn : List Nat → List Char) (fetch : Nat → Option (List Nat))
    (dest0 temp0 : Option (List Nat)) :
    load_metadata (some none) = .error () ∧
    ¬ load_metadata (some none) = .ok (∅ : Finset Nat) ∧
    (download_with_resume c s vh hashFn fetch
      { dest := dest0, temp := temp0, meta := some none }).outcome =
        .raised ∧
    (download_with_resume c s vh hashFn fetch
      { dest := dest0, temp := temp0, meta := some none }).fetched = [] := by
  refine ⟨rfl, by simp [load_metadata], rfl, rfl⟩

/-- Counterexample for C5 as stated: for a resource whose reported size
is 0 the planner computes zero chunks, not a single unbounded chunk, and
the fresh-download path raises (the pre-allocation seek goes to
position -1) instead of proceeding without fatal error. -/
theorem zero_size_counterexample :
    total_chunks 0 CHUNK_SIZE = 0 ∧
    (download_with_resume CHUNK_SIZE 0 none (fun _ => [])
      (fun _ => none) (freshFS none)).outcome = .raised ∧
    (download_with_resume CHUNK_SIZE 0 none (fun _ => [])
      (fun _ => none) (freshFS none)).fetched = [] := by
  refine ⟨by decide, rfl, rfl⟩

/-- C5 (amended): when the server reports size 0 the chunk count is 0
(`(0 + chunkSize - 1) // chunkSize = 0`), and a download with no
existing temp file raises on the negative pre-allocation seek before
fetching anything; there is no single-unbounded-chunk degradation. -/
theorem zero_size_zero_chunks_raises (c : Nat) (hc : 0 < c) :
    total_chunks 0 c = 0 ∧
    ∀ (vh : Option (List Char)) (hashFn : List Nat → List Char)
      (fetch : Nat → Option (List Nat)) (dest0 : Option (List Nat))
      (mr : Option (Option (Finset Nat))) (S0 : Finset Nat),
      load_metadata mr = .ok S0 →
      (download_with_resume c 0 vh hashFn fetch
        { dest := dest0, temp := none, meta := mr }).outcome = .raised ∧
      (download_with_resume c 0 vh hashFn fetch
        { dest := dest0, temp := none, meta := mr }).fetched = [] ∧
      (download_with_resume c 0 vh hashFn fetch
        { dest := dest0, temp := none, meta := mr }).fs.temp = some [] := by
  constructor
  · rw [total_chunks]
    exact Nat.div_eq_of_lt (by omega)
  · intro vh hashFn fetch dest0 mr S0 hload
    simp [download_with_resume, hload]

/-- Witness for the amended C5. -/
theorem zero_size_zero_chunks_raises_witness :
    (0 < CHUNK_SIZE ∧
      load_metadata none = Except.ok (∅ : Finset Nat)) ∧
    total_chunks 0 CHUNK_SIZE = 0 ∧
    (download_with_resume CHUNK_SIZE 0 none (fun _ => [])
      (fun _ => none) (freshFS none)).outcome = .raised := by
  have h := zero_size_zero_chunks_raises CHUNK_SIZE (by decide)
  exact ⟨⟨by decide, rfl⟩, h.1,
    (h.2 none (fun _ => []) (fun _ => none) none none ∅ rfl).1⟩

/-- In every exit path of `download_with_resume`, the ledgers persisted
during the run are exactly those recorded by the chunk loop. -/
lemma download_with_resume_savedLedgers (c s : Nat)
    (vh : Option (List Char)) (hashFn : List Nat → List Char)
    (fetch : Nat → Option (List Nat)) (dest0 : Option (List Nat))
    (t0 : List Nat) (mr : Option (Option (Finset Nat))) (S0 : Finset Nat)
    (hload : load_metadata mr = .ok S0) :
    (download_with_resume c s vh hashFn fetch
      { dest := dest0, temp := some t0, meta := mr }).savedLedgers =
    (runLoop c fetch t0 S0 (total_chunks s c)).1.savedLedgers := by
  simp only [download_with_resume, hload, download_loop]
  split
  · split
    · split
      · exact publish_step_savedLedgers _ _
      · rfl
    · exact publish_step_savedLedgers _ _
  · rfl

/-- C9: every ledger persisted at any point of a download run records
only chunk ordinals whose bytes had been written — and flushed, the code
flushes each chunk write before recording it — to the temp file at that
chunk's byte range before the ledger write. -/
theorem ledger_claims_only_flushed (c s : Nat) (src t0 : List Nat)
    (S0 : Finset Nat) (mr : Option (Option (Finset Nat)))
    (vh : Option (List Char)) (hashFn : List Nat → List Char)
    (fetch : Nat → Option (List Nat)) (dest0 : Option (List Nat))
    (hc : 0 < c) (hlen : src.length = s) (ht0 : t0.length = s)
    (hload : load_metadata mr = .ok S0)
    (hinit : ∀ p, p < s → p / c ∈ S0 → t0.getD p 0 = src.getD p 0)
    (hfetch : ∀ i, i < total_chunks s c →
      ∀ d, fetch i = some d → d = chunkData src c i) :
    ∀ e ∈ (download_with_resume c s vh hashFn fetch
        { dest := dest0, temp := some t0, meta := mr }).savedLedgers,
      ChunkIntact src c s e.1 e.2 := by
  intro e he
  rw [download_with_resume_savedLedgers c s vh hashFn fetch dest0 t0 mr S0
    hload] at he
  exact (runLoop_intact c s src t0 S0 fetch hc hlen ht0 hinit hfetch).2 e he

/-- Witness for C9: a run that persists a ledger via the error path
(chunk 1 of 2 fails after chunk 0 succeeded). -/
theorem ledger_claims_only_flushed_witness :
    (0 < 2 ∧ ([4, 5, 6] : List Nat).length = 3 ∧
      ([0, 0, 0] : List Nat).length = 3 ∧
      load_metadata (some (some ∅)) = Except.ok (∅ : Finset Nat)) ∧
    ∀ e ∈ (download_with_resume 2 3 none (fun _ => ['a'])
        (fun j => if j = 0 then some (chunkData [4, 5, 6] 2 j) else none)
        { dest := none, temp := some [0, 0, 0],
          meta := some (some ∅) }).savedLedgers,
      ChunkIntact [4, 5, 6] 2 3 e.1 e.2 := by
  refine ⟨⟨by decide, by decide, by decide, rfl⟩, ?_⟩
  exact ledger_claims_only_flushed 2 3 [4, 5, 6] [0, 0, 0] ∅
    (some (some ∅)) none (fun _ => ['a'])
    (fun j => if j = 0 then some (chunkData [4, 5, 6] 2 j) else none) none
    (by decide) (by decide) (by decide) rfl (by decide)
    (fun i hi d hd => by
      by_cases h0 : i = 0
      · subst h0
        simp at hd
        exact hd.symm
      · simp [h0] at hd)

end Prepper
